import Mathlib

/-!
Verification development for the AGC configuration library (`agc.py`).

Lines are modelled as `List Char` (a line from `file.readlines()` may end in
`"\n"`, `"\r\n"`, `"\r"`, or nothing).  Python dictionaries are modelled as
association lists with insertion-order-preserving upsert, which matches
Python `dict` semantics for the operations the source uses (`in`, `[..]`
lookup, `[..] = ..` assignment).  Python exceptions are modelled with an
explicit error type (`AgcError`); the in-place list mutation performed by
`updateAgcLineListWithDict` is modelled by returning the final list state
together with the optional raised error.  The `while` loop of
`makeListOfEnabledEvents` is modelled with explicit fuel, because on
negative masks the Python loop does not terminate (`-1 >> 1 == -1`).

The three regular expressions of the source are translated into
deterministic character-list parsers.  The translation is exact for the
ASCII fragment: Python `\s` is modelled as the six ASCII whitespace
characters and `\w` as ASCII word characters (the repository's data is
ASCII).  Greedy matching of `(.*)"\s*$` is captured by taking the last
double quote of the line whose suffix is all whitespace (the dot of the
regex does not cross a newline, and `\s*$` succeeds exactly on an
all-whitespace suffix, so that quote position is unique when it exists).
-/

abbrev Str := List Char

def lit (s : String) : Str := s.toList

/-! ### Character classes (ASCII models of the regex classes) -/

def isUpperCh (c : Char) : Bool := 'A' ≤ c && c ≤ 'Z'

def isDigitCh (c : Char) : Bool := '0' ≤ c && c ≤ '9'

def isLowerCh (c : Char) : Bool := 'a' ≤ c && c ≤ 'z'

/-- The regex class `[A-Z0-9_]` (tail of an object name). -/
def isObjCh (c : Char) : Bool := isUpperCh c || isDigitCh c || c = '_'

/-- Python `\w`, restricted to ASCII. -/
def isWordCh (c : Char) : Bool := isUpperCh c || isLowerCh c || isDigitCh c || c = '_'

/-- Python `\s`, restricted to ASCII: space, tab, newline, carriage return,
vertical tab, form feed. -/
def isSpaceCh (c : Char) : Bool :=
  c = ' ' || c = '\t' || c = '\n' || c = '\r' || c = '\x0b' || c = '\x0c'

def isHexDigitCh (c : Char) : Bool :=
  isDigitCh c || ('a' ≤ c && c ≤ 'f') || ('A' ≤ c && c ≤ 'F')

def hexVal (c : Char) : Nat :=
  if isDigitCh c then c.toNat - '0'.toNat
  else if 'a' ≤ c && c ≤ 'f' then c.toNat - 'a'.toNat + 10
  else c.toNat - 'A'.toNat + 10

/-! ### The three line patterns of `agc.py`

  `RE_COMPILED_CFG_ITEM  = ^([A-Z][A-Z0-9_]*)\.(!?\w+)\s*=\s*"(.*)"\s*$`
  `RE_COMPILED_CFG_START = ^\$GCAUConfigurationData\s*=\s*"Start"\s*$`
  `RE_COMPILED_CFG_END   = ^\$GCAUConfigurationData\s*=\s*"End"\s*$`
-/

/-- Strip an exact literal from the front of a character list. -/
def chopPre : Str → Str → Option Str
  | [], s => some s
  | _ :: _, [] => none
  | c :: cs, d :: ds => if d = c then chopPre cs ds else none

/-- Matcher for `^\$GCAUConfigurationData\s*=\s*"<word>"\s*$`, anchored like `re.match`,
with `\s*$` collapsing to "the remaining suffix is all whitespace". -/
def matchGcauMarker (word : Str) (s : Str) : Bool :=
  match chopPre (lit "$GCAUConfigurationData") s with
  | none => false
  | some r1 =>
    match r1.dropWhile isSpaceCh with
    | '=' :: r2 =>
      match chopPre ('"' :: (word ++ ['"'])) (r2.dropWhile isSpaceCh) with
      | some r3 => r3.all isSpaceCh
      | none => false
    | _ => false

def matchCfgStart (s : Str) : Bool := matchGcauMarker (lit "Start") s

def matchCfgEnd (s : Str) : Bool := matchGcauMarker (lit "End") s

/-- The attribute part `(!?\w+)`: an optional `!`, then one or more word
characters (maximal munch is exact here because the next regex atom,
`\s*=`, cannot start with a word character). -/
def parseAttrPart : Str → Option (Str × Str)
  | '!' :: r =>
    match List.span isWordCh r with
    | (w, r') => if w.isEmpty then none else some ('!' :: w, r')
  | r =>
    match List.span isWordCh r with
    | (w, r') => if w.isEmpty then none else some (w, r')

/-- The value part `(.*)"\s*$` after the opening quote: the regex's greedy
`.*` (which cannot cross `\n`) followed by `"` and an all-whitespace tail
selects the last `"` of the line whose suffix is all whitespace; that
position is unique when it exists because `"` is not whitespace. -/
def splitQuoted (rest : Str) : Option Str :=
  match (List.span isSpaceCh rest.reverse).2 with
  | '"' :: rv => if rv.contains '\n' then none else some rv.reverse
  | _ => none

/-- Matcher for `re.match(RE_COMPILED_CFG_ITEM, s)`, returning the three captures
`(object, attribute, value)`. -/
def matchCfgItem (s : Str) : Option (Str × Str × Str) :=
  match s with
  | [] => none
  | c :: r0 =>
    if isUpperCh c then
      match List.span isObjCh r0 with
      | (objTail, r1) =>
        match r1 with
        | '.' :: r2 =>
          match parseAttrPart r2 with
          | none => none
          | some (attr, r3) =>
            match r3.dropWhile isSpaceCh with
            | '=' :: r4 =>
              match r4.dropWhile isSpaceCh with
              | '"' :: r5 =>
                match splitQuoted r5 with
                | some v => some (c :: objTail, attr, v)
                | none => none
              | _ => none
            | _ => none
        | _ => none
    else none

/-! ### Association lists modelling Python `dict` -/

def alFind {α : Type} : List (Str × α) → Str → Option α
  | [], _ => none
  | (k, v) :: t, k' => if k' = k then some v else alFind t k'

/-- Assignment `d[k] = v`: replace in place if the key is present, append otherwise
(Python dicts preserve insertion order). -/
def alInsert {α : Type} : List (Str × α) → Str → α → List (Str × α)
  | [], k, v => [(k, v)]
  | (k0, v0) :: t, k, v => if k = k0 then (k, v) :: t else (k0, v0) :: alInsert t k v

abbrev CfgDict := List (Str × List (Str × Str))

/-- Upsert: `if obj not in diction: diction[obj] = \x7b\x7d` followed by
`diction[obj][attr] = val` (`makeGcauCfgDictFromAgc`, body of the loop). -/
def dictUpsert (d : CfgDict) (o a v : Str) : CfgDict :=
  match alFind d o with
  | none => alInsert d o (alInsert [] a v)
  | some inner => alInsert d o (alInsert inner a v)

/-- Two-level lookup `diction[o][a]`, as a total function. -/
def dictFind2 (d : CfgDict) (o a : Str) : Option Str :=
  match alFind d o with
  | none => none
  | some inner => alFind inner a

/-! ### Errors (`AgcObjException`, `AgcAttrException`, Python `ValueError`) -/

inductive AgcError : Type
  | objNotFound (objName : Str)
  | attrNotFound (attrName : Str)
  | valueError
deriving DecidableEq

/-! ### `makeGcauAGCLineFromDict` -/

/-- The canonical line `"{0}.{1} = \"{2}\"\n".format(o, a, v)`. -/
def mkAgcLine (o a v : Str) : Str :=
  o ++ ('.' :: (a ++ (' ' :: '=' :: ' ' :: '"' :: (v ++ ['"', '\n']))))

def makeGcauAGCLineFromDict (d : CfgDict) (o a : Str) : Except AgcError Str :=
  match alFind d o with
  | none => Except.error (AgcError.objNotFound o)
  | some inner =>
    match alFind inner a with
    | none => Except.error (AgcError.attrNotFound a)
    | some v => Except.ok (mkAgcLine o a v)

/-! ### `makeGcauCfgDictFromAgc` -/

def makeGcauCfgDictGo : List Str → CfgDict → Bool → CfgDict
  | [], d, _ => d
  | s :: rest, d, w =>
    if matchCfgStart s then makeGcauCfgDictGo rest d true
    else if matchCfgEnd s then makeGcauCfgDictGo rest d false
    else if w then
      match matchCfgItem s with
      | some (o, a, v) => makeGcauCfgDictGo rest (dictUpsert d o a v) w
      | none => makeGcauCfgDictGo rest d w
    else makeGcauCfgDictGo rest d w

def makeGcauCfgDictFromAgc (lineList : List Str) : CfgDict :=
  makeGcauCfgDictGo lineList [] false

/-! ### `makeGcauCfgStructureListFromAgc` -/

/-- Mutation `structuralList[len(structuralList)-1][1].append(attr)`. -/
def appendAttrToLast : List (Str × List Str) → Str → List (Str × List Str)
  | [], _ => []
  | [(o, attrs)], a => [(o, attrs ++ [a])]
  | e :: e2 :: rest, a => e :: appendAttrToLast (e2 :: rest) a

/-- The `currentObj = "!!!none!!!"` sentinel (never a valid object name,
since object names start with an uppercase letter). -/
def noneSentinel : Str := lit "!!!none!!!"

def makeGcauCfgStructGo : List Str → List (Str × List Str) → Str → Bool → List (Str × List Str)
  | [], sl, _, _ => sl
  | s :: rest, sl, cur, w =>
    if matchCfgStart s then makeGcauCfgStructGo rest sl cur true
    else if matchCfgEnd s then makeGcauCfgStructGo rest sl cur false
    else if w then
      match matchCfgItem s with
      | some (o, a, _v) =>
        if cur ≠ o then makeGcauCfgStructGo rest (sl ++ [(o, [a])]) o w
        else makeGcauCfgStructGo rest (appendAttrToLast sl a) cur w
      | none => makeGcauCfgStructGo rest sl cur w
    else makeGcauCfgStructGo rest sl cur w

def makeGcauCfgStructureListFromAgc (lineList : List Str) : List (Str × List Str) :=
  makeGcauCfgStructGo lineList [] noneSentinel false

/-! ### Python `int(s, 16)` -/

def stripWs (s : Str) : Str :=
  ((s.dropWhile isSpaceCh).reverse.dropWhile isSpaceCh).reverse

/-- Hex digits with single underscores between digits, continuing after one
digit has already been read. -/
def hexDigits1 : Str → Nat → Option Nat
  | [], acc => some acc
  | '_' :: c :: rest, acc =>
    if isHexDigitCh c then hexDigits1 rest (acc * 16 + hexVal c) else none
  | ['_'], _ => none
  | c :: rest, acc =>
    if isHexDigitCh c then hexDigits1 rest (acc * 16 + hexVal c) else none

/-- The digit part of an `int(s, 16)` literal; one leading underscore is
allowed only directly after a `0x` prefix. -/
def hexBody (afterOx : Bool) : Str → Option Nat
  | '_' :: c :: rest =>
    if afterOx && isHexDigitCh c then hexDigits1 rest (hexVal c) else none
  | c :: rest => if isHexDigitCh c then hexDigits1 rest (hexVal c) else none
  | [] => none

def pyIntHexMag : Str → Option Nat
  | '0' :: 'x' :: rest => hexBody true rest
  | '0' :: 'X' :: rest => hexBody true rest
  | u => hexBody false u

/-- Python `int(s, 16)`: surrounding whitespace, an optional sign, an
optional `0x`/`0X` prefix, then hex digits with single underscores between
digits; `none` models the `ValueError` raised on anything else. -/
def pyIntHex (s : Str) : Option Int :=
  match stripWs s with
  | '+' :: u => (pyIntHexMag u).map Int.ofNat
  | '-' :: u => (pyIntHexMag u).map (fun n => -(Int.ofNat n))
  | u => (pyIntHexMag u).map Int.ofNat

/-! ### `makeListOfEnabledEvents` -/

/-- The `while mask != 0` loop of `makeListOfEnabledEvents`, with explicit
fuel (`none` = the loop has not finished within `fuel` iterations).
Python's `mask % 2` and `mask >> 1` on a (possibly negative) `int` are
exactly `Int.emod mask 2` and `Int.ediv mask 2` (floor semantics for the
positive divisor 2). -/
def eventLoop : Nat → Int → Nat → List Nat → Option (List Nat)
  | 0, mask, _n, acc => if mask = 0 then some acc else none
  | fuel + 1, mask, n, acc =>
    if mask = 0 then some acc
    else eventLoop fuel (Int.ediv mask 2) (n + 1)
      (if Int.emod mask 2 = 1 then acc ++ [n] else acc)

/-- Function `makeListOfEnabledEvents`, fuelled.  Lookup of `SYSVAR` missing raises
`AgcObjException`; lookup of `EventEnable` missing raises
`AgcAttrException`; a value rejected by `int(_, 16)` raises `ValueError`,
which is caught by neither `except KeyError` handler. -/
def makeListOfEnabledEventsF (fuel : Nat) (gcauCfgDict : CfgDict) :
    Option (Except AgcError (List Nat)) :=
  match alFind gcauCfgDict (lit "SYSVAR") with
  | none => some (Except.error (AgcError.objNotFound (lit "SYSVAR")))
  | some obj =>
    match alFind obj (lit "EventEnable") with
    | none => some (Except.error (AgcError.attrNotFound (lit "EventEnable")))
    | some v =>
      match pyIntHex v with
      | none => some (Except.error AgcError.valueError)
      | some mask => (eventLoop fuel mask 1 []).map Except.ok

/-- The decoder terminates on `d`: some fuel suffices for the call to
return (either a value or a raised error). -/
def decoderTerminates (d : CfgDict) : Prop :=
  ∃ fuel r, makeListOfEnabledEventsF fuel d = some r

/-! ### `updateAgcLineListWithDict` -/

/-- Loop of `updateAgcLineListWithDict` over the remaining lines, with the
current region flag.  Returns the final state of the (in-place mutated)
line list together with the error raised in strict mode, if any; on a
strict-mode miss the current line and the unprocessed tail are returned
unchanged, modelling the `raise` that aborts the loop. -/
def updateAgcGo (d : CfgDict) (bCompleteness : Bool) :
    List Str → Bool → List Str × Option AgcError
  | [], _ => ([], none)
  | l :: ls, w =>
    if matchCfgStart l then
      let r := updateAgcGo d bCompleteness ls true
      (l :: r.1, r.2)
    else if matchCfgEnd l then
      let r := updateAgcGo d bCompleteness ls false
      (l :: r.1, r.2)
    else if w then
      match matchCfgItem l with
      | some (o, a, _v) =>
        match makeGcauAGCLineFromDict d o a with
        | Except.ok s =>
          let r := updateAgcGo d bCompleteness ls w
          (s :: r.1, r.2)
        | Except.error e =>
          if bCompleteness then (l :: ls, some e)
          else
            let r := updateAgcGo d bCompleteness ls w
            (l :: r.1, r.2)
      | none =>
        let r := updateAgcGo d bCompleteness ls w
        (l :: r.1, r.2)
    else
      let r := updateAgcGo d bCompleteness ls w
      (l :: r.1, r.2)

def updateAgcLineListWithDict (agcLineList : List Str) (agcDictionary : CfgDict)
    (bCompleteness : Bool) : List Str × Option AgcError :=
  updateAgcGo agcDictionary bCompleteness agcLineList false

/-! ### Specification-side helpers (shared scanner semantics) -/

/-- Value of `withinCfgData` after scanning the given lines, starting from
`w` (identical region tracking in all three loops of the source). -/
def flagAfter : Bool → List Str → Bool
  | w, [] => w
  | w, s :: rest =>
    if matchCfgStart s then flagAfter true rest
    else if matchCfgEnd s then flagAfter false rest
    else flagAfter w rest

/-- The in-region assignment triples `(object, attribute, value)` of a line
sequence, in order, starting from region flag `w`. -/
def itemsGo : List Str → Bool → List (Str × Str × Str)
  | [], _ => []
  | s :: rest, w =>
    if matchCfgStart s then itemsGo rest true
    else if matchCfgEnd s then itemsGo rest false
    else if w then
      match matchCfgItem s with
      | some t => t :: itemsGo rest w
      | none => itemsGo rest w
    else itemsGo rest w

def itemPairs (items : List (Str × Str × Str)) : List (Str × Str) :=
  items.map (fun t => (t.1, t.2.1))

/-- All `(object, attribute)` pairs of a configuration mapping. -/
def dictPairs : CfgDict → List (Str × Str)
  | [] => []
  | (o, inner) :: t => inner.map (fun p => (o, p.1)) ++ dictPairs t

/-- All `(object, attribute)` pairs of a structural listing, flattened. -/
def structPairs : List (Str × List Str) → List (Str × Str)
  | [] => []
  | (o, attrs) :: t => attrs.map (fun a => (o, a)) ++ structPairs t

/-- Group a pair sequence into maximal runs of equal object name: the
specification-side description of the structural listing. -/
def chunks : List (Str × Str) → List (Str × List Str)
  | [] => []
  | (o, a) :: rest =>
    match chunks rest with
    | [] => [(o, [a])]
    | (o', attrs) :: t =>
      if o = o' then (o, a :: attrs) :: t else (o, [a]) :: (o', attrs) :: t

/-- Variant of `chunks` computed with an explicit accumulator and current-object
sentinel, mirroring the loop state of `makeGcauCfgStructGo`. -/
def chunkGo : List (Str × Str) → List (Str × List Str) → Str → List (Str × List Str)
  | [], sl, _ => sl
  | (o, a) :: rest, sl, cur =>
    if cur ≠ o then chunkGo rest (sl ++ [(o, [a])]) o
    else chunkGo rest (appendAttrToLast sl a) cur

/-- Merge an entry with the head of a chunk list when the object names
agree (helper for relating `chunkGo` to `chunks`). -/
def mergeHead (e : Str × List Str) : List (Str × List Str) → List (Str × List Str)
  | [] => [e]
  | (o', attrs) :: t =>
    if e.1 = o' then (e.1, e.2 ++ attrs) :: t else e :: (o', attrs) :: t

/-- One-based positions of the set bits of a natural number, from the least
significant bit upward: the specification-side value of the event loop. -/
def bitEvents (m n : Nat) : List Nat :=
  if h : m = 0 then []
  else (if m % 2 = 1 then [n] else []) ++ bitEvents (m / 2) (n + 1)
termination_by m
decreasing_by exact Nat.div_lt_self (Nat.pos_of_ne_zero h) (by decide)

/-- The values stored for a given `(object, attribute)` pair by an item
sequence, in order. -/
def selVals (items : List (Str × Str × Str)) (o a : Str) : List Str :=
  items.filterMap (fun t => if t.1 = o ∧ t.2.1 = a then some t.2.2 else none)

/-- Folding one item into the dictionary (loop body of
`makeGcauCfgDictFromAgc`, expressed on extracted items). -/
def dictFoldStep (d : CfgDict) (t : Str × Str × Str) : CfgDict :=
  dictUpsert d t.1 t.2.1 t.2.2

/-! ## Lemmas: association lists -/

theorem alFind_alInsert {α : Type} (l : List (Str × α)) (k : Str) (v : α) (k' : Str) :
    alFind (alInsert l k v) k' = if k' = k then some v else alFind l k' := by
  induction l with
  | nil => simp [alInsert, alFind]
  | cons e t ih =>
    obtain ⟨k0, v0⟩ := e
    by_cases hk : k = k0
    · subst hk
      by_cases hk' : k' = k <;> simp [alInsert, alFind, hk']
    · by_cases hk' : k' = k0
      · subst hk'
        have hne : ¬k' = k := fun h => hk h.symm
        simp [alInsert, hk, alFind, hne]
      · simp [alInsert, hk, alFind, hk', ih]

theorem mem_map_pair_alInsert (i : List (Str × Str)) (o a v : Str) (p : Str × Str) :
    p ∈ (alInsert i a v).map (fun q => (o, q.1))
      ↔ p = (o, a) ∨ p ∈ i.map (fun q => (o, q.1)) := by
  induction i with
  | nil => simp [alInsert]
  | cons e t ih =>
    obtain ⟨k0, v0⟩ := e
    by_cases hk : a = k0
    · subst hk
      simp only [alInsert, eq_self_iff_true, if_true, List.map_cons, List.mem_cons]
      tauto
    · simp only [alInsert, if_neg hk, List.map_cons, List.mem_cons, ih]
      tauto

theorem dictFind2_upsert (d : CfgDict) (o a v o' a' : Str) :
    dictFind2 (dictUpsert d o a v) o' a'
      = if o' = o ∧ a' = a then some v else dictFind2 d o' a' := by
  cases hd : alFind d o with
  | none =>
    by_cases ho : o' = o
    · subst ho
      by_cases ha : a' = a
      · subst ha
        simp [dictFind2, dictUpsert, hd, alFind_alInsert, alFind]
      · simp [dictFind2, dictUpsert, hd, alFind_alInsert, alFind, ha]
    · simp [dictFind2, dictUpsert, hd, alFind_alInsert, ho]
  | some inner =>
    by_cases ho : o' = o
    · subst ho
      by_cases ha : a' = a
      · subst ha
        simp [dictFind2, dictUpsert, hd, alFind_alInsert]
      · simp [dictFind2, dictUpsert, hd, alFind_alInsert, ha]
    · simp [dictFind2, dictUpsert, hd, alFind_alInsert, ho]

theorem dictPairs_alInsert_of_notFound (d : CfgDict) (o : Str)
    (inner0 : List (Str × Str)) (hd : alFind d o = none) :
    dictPairs (alInsert d o inner0)
      = dictPairs d ++ inner0.map (fun q => (o, q.1)) := by
  induction d with
  | nil => simp [alInsert, dictPairs]
  | cons e t ih =>
    obtain ⟨k, i⟩ := e
    simp only [alFind] at hd
    by_cases ho : o = k
    · rw [if_pos ho] at hd
      exact absurd hd (by simp)
    · rw [if_neg ho] at hd
      simp [alInsert, ho, dictPairs, ih hd]

theorem mem_dictPairs_alInsert_of_found (d : CfgDict) (o a v : Str)
    (inner : List (Str × Str)) (hd : alFind d o = some inner) (p : Str × Str) :
    p ∈ dictPairs (alInsert d o (alInsert inner a v))
      ↔ p = (o, a) ∨ p ∈ dictPairs d := by
  induction d with
  | nil => simp [alFind] at hd
  | cons e t ih =>
    obtain ⟨k, i⟩ := e
    simp only [alFind] at hd
    by_cases ho : o = k
    · subst ho
      rw [if_pos rfl] at hd
      injection hd with hd
      subst hd
      simp only [alInsert, eq_self_iff_true, if_true, dictPairs, List.mem_append,
        mem_map_pair_alInsert]
      tauto
    · rw [if_neg ho] at hd
      simp only [alInsert, if_neg ho, dictPairs, List.mem_append, ih hd]
      tauto

theorem mem_dictPairs_upsert (d : CfgDict) (o a v : Str) (p : Str × Str) :
    p ∈ dictPairs (dictUpsert d o a v) ↔ p = (o, a) ∨ p ∈ dictPairs d := by
  unfold dictUpsert
  cases hd : alFind d o with
  | none =>
    rw [dictPairs_alInsert_of_notFound d o _ hd]
    simp only [alInsert, List.map_cons, List.map_nil, List.mem_append, List.mem_cons,
      List.not_mem_nil, or_false]
    tauto
  | some inner => exact mem_dictPairs_alInsert_of_found d o a v inner hd p

/-! ## Lemmas: line classification -/

theorem matchGcauMarker_ne_dollar (word : Str) (c : Char) (r : Str) (h : c ≠ '$') :
    matchGcauMarker word (c :: r) = false := by
  have h1 : chopPre (lit "$GCAUConfigurationData") (c :: r) = none := by
    show (if c = '$' then chopPre (lit "GCAUConfigurationData") r else none) = none
    simp [h]
  simp [matchGcauMarker, h1]

theorem matchCfgItem_markers (s : Str) (t : Str × Str × Str) (h : matchCfgItem s = some t) :
    matchCfgStart s = false ∧ matchCfgEnd s = false := by
  cases s with
  | nil => simp [matchCfgItem] at h
  | cons c r0 =>
    by_cases hc : isUpperCh c = true
    · have hdol : c ≠ '$' := by
        intro he
        subst he
        exact absurd hc (by decide)
      exact ⟨matchGcauMarker_ne_dollar _ c r0 hdol, matchGcauMarker_ne_dollar _ c r0 hdol⟩
    · simp [matchCfgItem, hc] at h

theorem matchCfgItem_obj_upper (s o a v : Str) (h : matchCfgItem s = some (o, a, v)) :
    ∃ c r, o = c :: r ∧ isUpperCh c = true := by
  cases s with
  | nil => simp [matchCfgItem] at h
  | cons c r0 =>
    by_cases hc : isUpperCh c = true
    · simp only [matchCfgItem, hc, if_true] at h
      repeat' split at h
      all_goals try exact Option.noConfusion h
      rw [Option.some.injEq, Prod.mk.injEq, Prod.mk.injEq] at h
      exact ⟨c, _, h.1.symm, hc⟩
    · simp [matchCfgItem, hc] at h

/-! ## Lemmas: region tracking and item extraction -/

theorem flagAfter_append (xs ys : List Str) (w : Bool) :
    flagAfter w (xs ++ ys) = flagAfter (flagAfter w xs) ys := by
  induction xs generalizing w with
  | nil => simp [flagAfter]
  | cons s t ih =>
    simp only [List.cons_append, flagAfter]
    by_cases h1 : matchCfgStart s = true
    · simp [h1, ih]
    · by_cases h2 : matchCfgEnd s = true
      · simp [h1, h2, ih]
      · simp [h1, h2, ih]

theorem itemsGo_append (xs ys : List Str) (w : Bool) :
    itemsGo (xs ++ ys) w = itemsGo xs w ++ itemsGo ys (flagAfter w xs) := by
  induction xs generalizing w with
  | nil => simp [itemsGo, flagAfter]
  | cons s t ih =>
    simp only [List.cons_append, itemsGo, flagAfter]
    by_cases h1 : matchCfgStart s = true
    · simp [h1, ih]
    · by_cases h2 : matchCfgEnd s = true
      · simp [h1, h2, ih]
      · cases w with
        | false => simp [h1, h2, ih]
        | true =>
          cases hi : matchCfgItem s with
          | some t' => simp [h1, h2, hi, ih]
          | none => simp [h1, h2, hi, ih]

theorem itemsGo_skip (s : Str) (ys : List Str) (h1 : matchCfgStart s = false)
    (h2 : matchCfgEnd s = false) :
    itemsGo (s :: ys) false = itemsGo ys false := by
  simp [itemsGo, h1, h2]

theorem flagAfter_skip (s : Str) (ys : List Str) (w : Bool) (h1 : matchCfgStart s = false)
    (h2 : matchCfgEnd s = false) :
    flagAfter w (s :: ys) = flagAfter w ys := by
  simp [flagAfter, h1, h2]

theorem makeGcauCfgDictGo_items (lines : List Str) (d : CfgDict) (w : Bool) :
    makeGcauCfgDictGo lines d w = List.foldl dictFoldStep d (itemsGo lines w) := by
  induction lines generalizing d w with
  | nil => simp [makeGcauCfgDictGo, itemsGo]
  | cons s t ih =>
    simp only [makeGcauCfgDictGo, itemsGo]
    by_cases h1 : matchCfgStart s = true
    · simp [h1, ih]
    · by_cases h2 : matchCfgEnd s = true
      · simp [h1, h2, ih]
      · cases w with
        | false => simp [h1, h2, ih]
        | true =>
          cases hi : matchCfgItem s with
          | some t' =>
            obtain ⟨o, a, v⟩ := t'
            simp [h1, h2, hi, ih, dictFoldStep]
          | none => simp [h1, h2, hi, ih]

theorem makeGcauCfgDictFromAgc_items (lines : List Str) :
    makeGcauCfgDictFromAgc lines = List.foldl dictFoldStep [] (itemsGo lines false) :=
  makeGcauCfgDictGo_items lines [] false

theorem makeGcauCfgStructGo_chunkGo (lines : List Str) (sl : List (Str × List Str))
    (cur : Str) (w : Bool) :
    makeGcauCfgStructGo lines sl cur w = chunkGo (itemPairs (itemsGo lines w)) sl cur := by
  induction lines generalizing sl cur w with
  | nil => simp [makeGcauCfgStructGo, itemsGo, itemPairs, chunkGo]
  | cons s t ih =>
    simp only [makeGcauCfgStructGo, itemsGo]
    by_cases h1 : matchCfgStart s = true
    · simp [h1, ih]
    · by_cases h2 : matchCfgEnd s = true
      · simp [h1, h2, ih]
      · cases w with
        | false => simp [h1, h2, ih]
        | true =>
          cases hi : matchCfgItem s with
          | some t' =>
            obtain ⟨o, a, v⟩ := t'
            by_cases hcur : cur = o
            · simp [h1, h2, hi, ih, itemPairs, chunkGo, hcur]
            · simp [h1, h2, hi, ih, itemPairs, chunkGo, hcur]
          | none => simp [h1, h2, hi, ih]

theorem makeGcauCfgStructureListFromAgc_chunkGo (lines : List Str) :
    makeGcauCfgStructureListFromAgc lines
      = chunkGo (itemPairs (itemsGo lines false)) [] noneSentinel :=
  makeGcauCfgStructGo_chunkGo lines [] noneSentinel false

/-! ## Lemmas: the structural listing as run-grouping -/

theorem appendAttrToLast_concat (sl : List (Str × List Str)) (o : Str)
    (attrs : List Str) (a : Str) :
    appendAttrToLast (sl ++ [(o, attrs)]) a = sl ++ [(o, attrs ++ [a])] := by
  induction sl with
  | nil => simp [appendAttrToLast]
  | cons e t ih =>
    cases t with
    | nil => simp [appendAttrToLast]
    | cons e2 t2 => simpa [appendAttrToLast] using ih

theorem chunks_cons_mergeHead (o a : Str) (ps : List (Str × Str)) :
    chunks ((o, a) :: ps) = mergeHead (o, [a]) (chunks ps) := by
  simp only [chunks]
  cases hcp : chunks ps with
  | nil => simp [mergeHead]
  | cons e t =>
    obtain ⟨o2, bs⟩ := e
    by_cases h : o = o2 <;> simp [mergeHead, h]

theorem chunkGo_concat (ps : List (Str × Str)) (sl : List (Str × List Str))
    (o : Str) (attrs : List Str) :
    chunkGo ps (sl ++ [(o, attrs)]) o = sl ++ mergeHead (o, attrs) (chunks ps) := by
  induction ps generalizing sl o attrs with
  | nil => simp [chunkGo, chunks, mergeHead]
  | cons q rest ih =>
    obtain ⟨o', a'⟩ := q
    rw [chunks_cons_mergeHead]
    by_cases ho : o = o'
    · subst ho
      rw [show chunkGo ((o, a') :: rest) (sl ++ [(o, attrs)]) o
            = chunkGo rest (appendAttrToLast (sl ++ [(o, attrs)]) a') o by
          simp [chunkGo]]
      rw [appendAttrToLast_concat, ih]
      cases hcp : chunks rest with
      | nil => simp [mergeHead]
      | cons e t =>
        obtain ⟨o2, bs⟩ := e
        by_cases h2 : o = o2 <;> simp [mergeHead, h2]
    · rw [show chunkGo ((o', a') :: rest) (sl ++ [(o, attrs)]) o
            = chunkGo rest ((sl ++ [(o, attrs)]) ++ [(o', [a'])]) o' by
          simp [chunkGo, ho]]
      rw [ih]
      cases hcp : chunks rest with
      | nil => simp [mergeHead, ho]
      | cons e t =>
        obtain ⟨o2, bs⟩ := e
        by_cases h2 : o' = o2
        · have ho2 : ¬o = o2 := fun hx => ho (hx.trans h2.symm)
          simp [mergeHead, h2, ho, ho2]
        · simp [mergeHead, h2, ho]

theorem chunkGo_nil_of_ne (ps : List (Str × Str)) (cur : Str)
    (hne : ∀ q ∈ ps, q.1 ≠ cur) : chunkGo ps [] cur = chunks ps := by
  cases ps with
  | nil => simp [chunkGo, chunks]
  | cons q rest =>
    obtain ⟨o, a⟩ := q
    have hco : cur ≠ o := fun h => (hne (o, a) (by simp)) (by simp [h.symm])
    rw [show chunkGo ((o, a) :: rest) [] cur = chunkGo rest ([] ++ [(o, [a])]) o by
      simp [chunkGo, hco]]
    rw [chunkGo_concat, chunks_cons_mergeHead]
    simp

theorem structPairs_chunks (ps : List (Str × Str)) : structPairs (chunks ps) = ps := by
  induction ps with
  | nil => simp [chunks, structPairs]
  | cons q rest ih =>
    obtain ⟨o, a⟩ := q
    rw [chunks_cons_mergeHead]
    cases hcp : chunks rest with
    | nil =>
      have hrest : rest = [] := by rw [← ih, hcp]; rfl
      subst hrest
      simp [mergeHead, structPairs]
    | cons e t =>
      obtain ⟨o2, bs⟩ := e
      rw [hcp] at ih
      by_cases h : o = o2
      · subst h
        simp only [mergeHead, if_pos rfl]
        simp only [structPairs] at ih ⊢
        simp [← ih]
      · simp only [mergeHead, if_neg h]
        simp only [structPairs] at ih ⊢
        simp [← ih]

theorem chunks_chain (ps : List (Str × Str)) :
    List.Chain' (fun x y : Str × List Str => x.1 ≠ y.1) (chunks ps) := by
  induction ps with
  | nil => simp [chunks]
  | cons q rest ih =>
    obtain ⟨o, a⟩ := q
    rw [chunks_cons_mergeHead]
    cases hcp : chunks rest with
    | nil => simp [mergeHead]
    | cons e t =>
      obtain ⟨o2, bs⟩ := e
      rw [hcp] at ih
      by_cases h : o = o2
      · subst h
        simp only [mergeHead, eq_self_iff_true, if_true]
        rw [List.chain'_cons'] at ih ⊢
        exact ih
      · simp only [mergeHead, if_neg h]
        rw [List.chain'_cons]
        exact ⟨h, ih⟩

theorem itemsGo_obj_upper (lines : List Str) (w : Bool) (t : Str × Str × Str)
    (ht : t ∈ itemsGo lines w) : ∃ c r, t.1 = c :: r ∧ isUpperCh c = true := by
  induction lines generalizing w with
  | nil => simp [itemsGo] at ht
  | cons s rest ih =>
    by_cases h1 : matchCfgStart s = true
    · rw [show itemsGo (s :: rest) w = itemsGo rest true by simp [itemsGo, h1]] at ht
      exact ih true ht
    · by_cases h2 : matchCfgEnd s = true
      · rw [show itemsGo (s :: rest) w = itemsGo rest false by simp [itemsGo, h1, h2]] at ht
        exact ih false ht
      · cases w with
        | false =>
          rw [show itemsGo (s :: rest) false = itemsGo rest false by
            simp [itemsGo, h1, h2]] at ht
          exact ih false ht
        | true =>
          cases hi : matchCfgItem s with
          | some t' =>
            rw [show itemsGo (s :: rest) true = t' :: itemsGo rest true by
              simp [itemsGo, h1, h2, hi]] at ht
            rcases List.mem_cons.mp ht with h | h
            · obtain ⟨o, a, v⟩ := t'
              rw [h]
              exact matchCfgItem_obj_upper s o a v hi
            · exact ih true h
          | none =>
            rw [show itemsGo (s :: rest) true = itemsGo rest true by
              simp [itemsGo, h1, h2, hi]] at ht
            exact ih true ht

theorem itemPairs_ne_sentinel (lines : List Str) (q : Str × Str)
    (hq : q ∈ itemPairs (itemsGo lines false)) : q.1 ≠ noneSentinel := by
  obtain ⟨t, ht, hte⟩ := List.mem_map.mp hq
  obtain ⟨c, r, hto, hc⟩ := itemsGo_obj_upper lines false t ht
  intro he
  have hsent : noneSentinel = '!' :: lit "!!none!!!" := rfl
  rw [← hte] at he
  rw [hto, hsent] at he
  have hcb : c = '!' := (List.cons.injEq _ _ _ _).mp he |>.1
  subst hcb
  exact absurd hc (by decide)

theorem makeGcauCfgStructureListFromAgc_chunks (lines : List Str) :
    makeGcauCfgStructureListFromAgc lines = chunks (itemPairs (itemsGo lines false)) := by
  rw [makeGcauCfgStructureListFromAgc_chunkGo]
  exact chunkGo_nil_of_ne _ _ (fun q hq => itemPairs_ne_sentinel lines q hq)

/-! ## Lemmas: the line rewriter -/

theorem updateAgcGo_cons_start (d : CfgDict) (b : Bool) (l : Str) (ls : List Str) (w : Bool)
    (h1 : matchCfgStart l = true) :
    updateAgcGo d b (l :: ls) w
      = (l :: (updateAgcGo d b ls true).1, (updateAgcGo d b ls true).2) := by
  simp [updateAgcGo, h1]

theorem updateAgcGo_cons_end (d : CfgDict) (b : Bool) (l : Str) (ls : List Str) (w : Bool)
    (h1 : matchCfgStart l = false) (h2 : matchCfgEnd l = true) :
    updateAgcGo d b (l :: ls) w
      = (l :: (updateAgcGo d b ls false).1, (updateAgcGo d b ls false).2) := by
  simp [updateAgcGo, h1, h2]

theorem updateAgcGo_cons_outside (d : CfgDict) (b : Bool) (l : Str) (ls : List Str)
    (h1 : matchCfgStart l = false) (h2 : matchCfgEnd l = false) :
    updateAgcGo d b (l :: ls) false
      = (l :: (updateAgcGo d b ls false).1, (updateAgcGo d b ls false).2) := by
  simp [updateAgcGo, h1, h2]

theorem updateAgcGo_cons_other (d : CfgDict) (b : Bool) (l : Str) (ls : List Str)
    (h1 : matchCfgStart l = false) (h2 : matchCfgEnd l = false)
    (hi : matchCfgItem l = none) :
    updateAgcGo d b (l :: ls) true
      = (l :: (updateAgcGo d b ls true).1, (updateAgcGo d b ls true).2) := by
  simp [updateAgcGo, h1, h2, hi]

theorem updateAgcGo_cons_found (d : CfgDict) (b : Bool) (l : Str) (ls : List Str)
    (o a v s : Str) (h1 : matchCfgStart l = false) (h2 : matchCfgEnd l = false)
    (hi : matchCfgItem l = some (o, a, v)) (hm : makeGcauAGCLineFromDict d o a = Except.ok s) :
    updateAgcGo d b (l :: ls) true
      = (s :: (updateAgcGo d b ls true).1, (updateAgcGo d b ls true).2) := by
  simp [updateAgcGo, h1, h2, hi, hm]

theorem updateAgcGo_cons_miss_strict (d : CfgDict) (l : Str) (ls : List Str)
    (o a v : Str) (e : AgcError) (h1 : matchCfgStart l = false) (h2 : matchCfgEnd l = false)
    (hi : matchCfgItem l = some (o, a, v))
    (hm : makeGcauAGCLineFromDict d o a = Except.error e) :
    updateAgcGo d true (l :: ls) true = (l :: ls, some e) := by
  simp [updateAgcGo, h1, h2, hi, hm]

theorem updateAgcGo_cons_miss_relaxed (d : CfgDict) (l : Str) (ls : List Str)
    (o a v : Str) (e : AgcError) (h1 : matchCfgStart l = false) (h2 : matchCfgEnd l = false)
    (hi : matchCfgItem l = some (o, a, v))
    (hm : makeGcauAGCLineFromDict d o a = Except.error e) :
    updateAgcGo d false (l :: ls) true
      = (l :: (updateAgcGo d false ls true).1, (updateAgcGo d false ls true).2) := by
  simp [updateAgcGo, h1, h2, hi, hm]

theorem updateAgcGo_length (d : CfgDict) (b : Bool) (ls : List Str) (w : Bool) :
    (updateAgcGo d b ls w).1.length = ls.length := by
  induction ls generalizing w with
  | nil => simp [updateAgcGo]
  | cons l t ih =>
    by_cases h1 : matchCfgStart l = true
    · rw [updateAgcGo_cons_start d b l t w h1]
      simp [ih]
    · rw [Bool.not_eq_true] at h1
      by_cases h2 : matchCfgEnd l = true
      · rw [updateAgcGo_cons_end d b l t w h1 h2]
        simp [ih]
      · rw [Bool.not_eq_true] at h2
        cases w with
        | false =>
          rw [updateAgcGo_cons_outside d b l t h1 h2]
          simp [ih]
        | true =>
          cases hi : matchCfgItem l with
          | none =>
            rw [updateAgcGo_cons_other d b l t h1 h2 hi]
            simp [ih]
          | some t' =>
            obtain ⟨o, a, v⟩ := t'
            cases hm : makeGcauAGCLineFromDict d o a with
            | ok s =>
              rw [updateAgcGo_cons_found d b l t o a v s h1 h2 hi hm]
              simp [ih]
            | error e =>
              cases b with
              | true =>
                rw [updateAgcGo_cons_miss_strict d l t o a v e h1 h2 hi hm]
              | false =>
                rw [updateAgcGo_cons_miss_relaxed d l t o a v e h1 h2 hi hm]
                simp [ih]

theorem updateAgcGo_relaxed_noerr (d : CfgDict) (ls : List Str) (w : Bool) :
    (updateAgcGo d false ls w).2 = none := by
  induction ls generalizing w with
  | nil => simp [updateAgcGo]
  | cons l t ih =>
    by_cases h1 : matchCfgStart l = true
    · rw [updateAgcGo_cons_start d false l t w h1]
      simp [ih]
    · rw [Bool.not_eq_true] at h1
      by_cases h2 : matchCfgEnd l = true
      · rw [updateAgcGo_cons_end d false l t w h1 h2]
        simp [ih]
      · rw [Bool.not_eq_true] at h2
        cases w with
        | false =>
          rw [updateAgcGo_cons_outside d false l t h1 h2]
          simp [ih]
        | true =>
          cases hi : matchCfgItem l with
          | none =>
            rw [updateAgcGo_cons_other d false l t h1 h2 hi]
            simp [ih]
          | some t' =>
            obtain ⟨o, a, v⟩ := t'
            cases hm : makeGcauAGCLineFromDict d o a with
            | ok s =>
              rw [updateAgcGo_cons_found d false l t o a v s h1 h2 hi hm]
              simp [ih]
            | error e =>
              rw [updateAgcGo_cons_miss_relaxed d l t o a v e h1 h2 hi hm]
              simp [ih]

theorem updateAgcGo_append_of_ok (d : CfgDict) (b : Bool) (xs ys : List Str) (w : Bool)
    (h : (updateAgcGo d b xs w).2 = none) :
    updateAgcGo d b (xs ++ ys) w
      = ((updateAgcGo d b xs w).1 ++ (updateAgcGo d b ys (flagAfter w xs)).1,
         (updateAgcGo d b ys (flagAfter w xs)).2) := by
  induction xs generalizing w with
  | nil => simp [updateAgcGo, flagAfter]
  | cons l t ih =>
    rw [List.cons_append]
    by_cases h1 : matchCfgStart l = true
    · rw [updateAgcGo_cons_start d b l t w h1] at h ⊢
      rw [updateAgcGo_cons_start d b l (t ++ ys) w h1]
      simp only at h
      rw [ih true h]
      simp [flagAfter, h1]
    · rw [Bool.not_eq_true] at h1
      by_cases h2 : matchCfgEnd l = true
      · rw [updateAgcGo_cons_end d b l t w h1 h2] at h ⊢
        rw [updateAgcGo_cons_end d b l (t ++ ys) w h1 h2]
        simp only at h
        rw [ih false h]
        simp [flagAfter, h1, h2]
      · rw [Bool.not_eq_true] at h2
        cases w with
        | false =>
          rw [updateAgcGo_cons_outside d b l t h1 h2] at h ⊢
          rw [updateAgcGo_cons_outside d b l (t ++ ys) h1 h2]
          simp only at h
          rw [ih false h]
          simp [flagAfter, h1, h2]
        | true =>
          cases hi : matchCfgItem l with
          | none =>
            rw [updateAgcGo_cons_other d b l t h1 h2 hi] at h ⊢
            rw [updateAgcGo_cons_other d b l (t ++ ys) h1 h2 hi]
            simp only at h
            rw [ih true h]
            simp [flagAfter, h1, h2]
          | some t' =>
            obtain ⟨o, a, v⟩ := t'
            cases hm : makeGcauAGCLineFromDict d o a with
            | ok s =>
              rw [updateAgcGo_cons_found d b l t o a v s h1 h2 hi hm] at h ⊢
              rw [updateAgcGo_cons_found d b l (t ++ ys) o a v s h1 h2 hi hm]
              simp only at h
              rw [ih true h]
              simp [flagAfter, h1, h2]
            | error e =>
              cases b with
              | true =>
                rw [updateAgcGo_cons_miss_strict d l t o a v e h1 h2 hi hm] at h
                simp at h
              | false =>
                rw [updateAgcGo_cons_miss_relaxed d l t o a v e h1 h2 hi hm] at h ⊢
                rw [updateAgcGo_cons_miss_relaxed d l (t ++ ys) o a v e h1 h2 hi hm]
                simp only at h
                rw [ih true h]
                simp [flagAfter, h1, h2]

theorem updateAgcGo_append_of_err (d : CfgDict) (b : Bool) (xs ys : List Str) (w : Bool)
    (e : AgcError) (h : (updateAgcGo d b xs w).2 = some e) :
    updateAgcGo d b (xs ++ ys) w = ((updateAgcGo d b xs w).1 ++ ys, some e) := by
  induction xs generalizing w with
  | nil => simp [updateAgcGo] at h
  | cons l t ih =>
    rw [List.cons_append]
    by_cases h1 : matchCfgStart l = true
    · rw [updateAgcGo_cons_start d b l t w h1] at h ⊢
      rw [updateAgcGo_cons_start d b l (t ++ ys) w h1]
      simp only at h
      rw [ih true h]
      simp
    · rw [Bool.not_eq_true] at h1
      by_cases h2 : matchCfgEnd l = true
      · rw [updateAgcGo_cons_end d b l t w h1 h2] at h ⊢
        rw [updateAgcGo_cons_end d b l (t ++ ys) w h1 h2]
        simp only at h
        rw [ih false h]
        simp
      · rw [Bool.not_eq_true] at h2
        cases w with
        | false =>
          rw [updateAgcGo_cons_outside d b l t h1 h2] at h ⊢
          rw [updateAgcGo_cons_outside d b l (t ++ ys) h1 h2]
          simp only at h
          rw [ih false h]
          simp
        | true =>
          cases hi : matchCfgItem l with
          | none =>
            rw [updateAgcGo_cons_other d b l t h1 h2 hi] at h ⊢
            rw [updateAgcGo_cons_other d b l (t ++ ys) h1 h2 hi]
            simp only at h
            rw [ih true h]
            simp
          | some t' =>
            obtain ⟨o, a, v⟩ := t'
            cases hm : makeGcauAGCLineFromDict d o a with
            | ok s =>
              rw [updateAgcGo_cons_found d b l t o a v s h1 h2 hi hm] at h ⊢
              rw [updateAgcGo_cons_found d b l (t ++ ys) o a v s h1 h2 hi hm]
              simp only at h
              rw [ih true h]
              simp
            | error e' =>
              cases b with
              | true =>
                rw [updateAgcGo_cons_miss_strict d l t o a v e' h1 h2 hi hm] at h ⊢
                rw [updateAgcGo_cons_miss_strict d l (t ++ ys) o a v e' h1 h2 hi hm]
                simp only at h
                injection h with h
                subst h
                simp
              | false =>
                rw [updateAgcGo_cons_miss_relaxed d l t o a v e' h1 h2 hi hm] at h ⊢
                rw [updateAgcGo_cons_miss_relaxed d l (t ++ ys) o a v e' h1 h2 hi hm]
                simp only at h
                rw [ih true h]
                simp

theorem updateAgcGo_noerr_of_append (d : CfgDict) (b : Bool) (xs ys : List Str) (w : Bool)
    (h : (updateAgcGo d b (xs ++ ys) w).2 = none) : (updateAgcGo d b xs w).2 = none := by
  cases he : (updateAgcGo d b xs w).2 with
  | none => rfl
  | some e =>
    rw [updateAgcGo_append_of_err d b xs ys w e he] at h
    simp at h

/-! ## Lemmas: dictionary lookup after folding items -/

theorem getElem?_append_cons {α : Type} (A : List α) (x : α) (B : List α) :
    (A ++ x :: B)[A.length]? = some x := by
  rw [List.getElem?_append_right (Nat.le_refl _)]
  simp

theorem dictFind2_foldl (items : List (Str × Str × Str)) (d : CfgDict) (o a : Str) :
    dictFind2 (List.foldl dictFoldStep d items) o a
      = match (selVals items o a).getLast? with
        | some v => some v
        | none => dictFind2 d o a := by
  induction items using List.reverseRecOn generalizing d with
  | nil => simp [selVals]
  | append_singleton xs t ih =>
    rw [List.foldl_append]
    simp only [List.foldl_cons, List.foldl_nil, dictFoldStep]
    rw [dictFind2_upsert]
    by_cases hc : t.1 = o ∧ t.2.1 = a
    · rw [if_pos ⟨hc.1.symm, hc.2.symm⟩]
      have hsel : selVals (xs ++ [t]) o a = selVals xs o a ++ [t.2.2] := by
        simp [selVals, List.filterMap_append, hc.1, hc.2]
      rw [hsel, List.getLast?_concat]
    · rw [if_neg (fun hx => hc ⟨hx.1.symm, hx.2.symm⟩)]
      have hsel : selVals (xs ++ [t]) o a = selVals xs o a := by
        have : (if t.1 = o ∧ t.2.1 = a then some t.2.2 else none) = none := if_neg hc
        simp [selVals, List.filterMap_append, this]
      rw [hsel, ih]

theorem mem_selVals (items : List (Str × Str × Str)) (o a v : Str)
    (h : (o, a, v) ∈ items) : v ∈ selVals items o a := by
  refine List.mem_filterMap.mpr ⟨(o, a, v), h, ?_⟩
  simp

theorem dictFind2_some_of_mem_items (lines : List Str) (o a v : Str)
    (h : (o, a, v) ∈ itemsGo lines false) :
    ∃ v', dictFind2 (makeGcauCfgDictFromAgc lines) o a = some v' := by
  rw [makeGcauCfgDictFromAgc_items, dictFind2_foldl]
  cases hg : (selVals (itemsGo lines false) o a).getLast? with
  | some v0 => exact ⟨v0, rfl⟩
  | none =>
    rw [List.getLast?_eq_none_iff] at hg
    have := mem_selVals (itemsGo lines false) o a v h
    rw [hg] at this
    simp at this

theorem dictFind2_last_of_unique (lines : List Str) (o a v : Str)
    (h : selVals (itemsGo lines false) o a = [v]) :
    dictFind2 (makeGcauCfgDictFromAgc lines) o a = some v := by
  rw [makeGcauCfgDictFromAgc_items, dictFind2_foldl, h]
  rfl

theorem makeGcau_ok_of_found (d : CfgDict) (o a v : Str)
    (h : dictFind2 d o a = some v) :
    makeGcauAGCLineFromDict d o a = Except.ok (mkAgcLine o a v) := by
  unfold dictFind2 at h
  cases hd : alFind d o with
  | none => rw [hd] at h; exact Option.noConfusion h
  | some inner =>
    rw [hd] at h
    simp only [makeGcauAGCLineFromDict, hd]
    simp at h
    rw [h]

theorem updateAgcGo_noerr_of_all_found (d : CfgDict) (b : Bool) (ls : List Str) (w : Bool)
    (hall : ∀ t ∈ itemsGo ls w, ∃ s, makeGcauAGCLineFromDict d t.1 t.2.1 = Except.ok s) :
    (updateAgcGo d b ls w).2 = none := by
  induction ls generalizing w with
  | nil => simp [updateAgcGo]
  | cons l t ih =>
    by_cases h1 : matchCfgStart l = true
    · rw [updateAgcGo_cons_start d b l t w h1]
      refine ih true (fun q hq => hall q ?_)
      rw [show itemsGo (l :: t) w = itemsGo t true by simp [itemsGo, h1]]
      exact hq
    · rw [Bool.not_eq_true] at h1
      by_cases h2 : matchCfgEnd l = true
      · rw [updateAgcGo_cons_end d b l t w h1 h2]
        refine ih false (fun q hq => hall q ?_)
        rw [show itemsGo (l :: t) w = itemsGo t false by simp [itemsGo, h1, h2]]
        exact hq
      · rw [Bool.not_eq_true] at h2
        cases w with
        | false =>
          rw [updateAgcGo_cons_outside d b l t h1 h2]
          refine ih false (fun q hq => hall q ?_)
          rw [show itemsGo (l :: t) false = itemsGo t false by simp [itemsGo, h1, h2]]
          exact hq
        | true =>
          cases hi : matchCfgItem l with
          | none =>
            rw [updateAgcGo_cons_other d b l t h1 h2 hi]
            refine ih true (fun q hq => hall q ?_)
            rw [show itemsGo (l :: t) true = itemsGo t true by simp [itemsGo, h1, h2, hi]]
            exact hq
          | some t' =>
            obtain ⟨o, a, v⟩ := t'
            have hmem : itemsGo (l :: t) true = (o, a, v) :: itemsGo t true := by
              simp [itemsGo, h1, h2, hi]
            cases hm : makeGcauAGCLineFromDict d o a with
            | ok s =>
              rw [updateAgcGo_cons_found d b l t o a v s h1 h2 hi hm]
              refine ih true (fun q hq => hall q ?_)
              rw [hmem]
              exact List.mem_cons_of_mem _ hq
            | error e =>
              obtain ⟨s, hs⟩ := hall (o, a, v) (by rw [hmem]; exact List.mem_cons_self _ _)
              rw [hs] at hm
              exact Except.noConfusion hm

/-! ## Lemmas: the event bitmask loop -/

theorem eventLoop_zero (fuel : Nat) (n : Nat) (acc : List Nat) :
    eventLoop fuel 0 n acc = some acc := by
  cases fuel <;> simp [eventLoop]

theorem eventLoop_negSucc (fuel : Nat) (k : Nat) (n : Nat) (acc : List Nat) :
    eventLoop fuel (Int.negSucc k) n acc = none := by
  induction fuel generalizing k n acc with
  | zero => simp [eventLoop]
  | succ fuel ih =>
    have hne : (Int.negSucc k) ≠ 0 := by
      intro h
      exact Int.noConfusion h
    have hdiv : Int.ediv (Int.negSucc k) 2 = Int.negSucc (k / 2) := rfl
    simp only [eventLoop, if_neg hne, hdiv]
    exact ih (k / 2) (n + 1) _

theorem bitEvents_zero (n : Nat) : bitEvents 0 n = [] := by
  rw [bitEvents]
  simp

theorem eventLoop_ofNat_sound (fuel : Nat) :
    ∀ (m n : Nat) (acc l : List Nat), eventLoop fuel (Int.ofNat m) n acc = some l →
      l = acc ++ bitEvents m n := by
  induction fuel with
  | zero =>
    intro m n acc l h
    simp only [eventLoop] at h
    by_cases hm : (Int.ofNat m) = 0
    · rw [if_pos hm] at h
      injection h with h
      have hm0 : m = 0 := by
        cases m with
        | zero => rfl
        | succ k =>
          have hm' : ((k + 1 : Nat) : Int) = 0 := hm
          exact Nat.cast_eq_zero.mp hm'
      subst hm0
      rw [bitEvents_zero]
      simp [h.symm]
    · rw [if_neg hm] at h
      exact Option.noConfusion h
  | succ fuel ih =>
    intro m n acc l h
    by_cases hm : m = 0
    · subst hm
      rw [show (Int.ofNat 0) = (0 : Int) from rfl, eventLoop_zero] at h
      injection h with h
      rw [bitEvents_zero]
      simp [h.symm]
    · have hne : (Int.ofNat m) ≠ 0 := by
        simp [Int.ofNat_eq_zero, hm]
      have hdiv : Int.ediv (Int.ofNat m) 2 = Int.ofNat (m / 2) := rfl
      have hmod : Int.emod (Int.ofNat m) 2 = Int.ofNat (m % 2) := rfl
      simp only [eventLoop, if_neg hne, hdiv, hmod] at h
      have hcond : (Int.ofNat (m % 2) = 1) ↔ (m % 2 = 1) := by
        constructor
        · intro hx
          exact Int.ofNat_inj.mp hx
        · intro hx
          rw [hx]
          rfl
      rw [bitEvents, dif_neg hm]
      by_cases hpar : m % 2 = 1
      · rw [if_pos (hcond.mpr hpar)] at h
        have := ih (m / 2) (n + 1) (acc ++ [n]) l h
        rw [this, if_pos hpar]
        simp
      · rw [if_neg (fun hx => hpar (hcond.mp hx))] at h
        have := ih (m / 2) (n + 1) acc l h
        rw [this, if_neg hpar]
        simp

theorem eventLoop_ofNat_complete (fuel : Nat) :
    ∀ (m n : Nat) (acc : List Nat), m < fuel →
      eventLoop fuel (Int.ofNat m) n acc = some (acc ++ bitEvents m n) := by
  induction fuel with
  | zero =>
    intro m n acc h
    exact absurd h (Nat.not_lt_zero m)
  | succ fuel ih =>
    intro m n acc h
    by_cases hm : m = 0
    · subst hm
      rw [show (Int.ofNat 0) = (0 : Int) from rfl, eventLoop_zero, bitEvents_zero]
      simp
    · have hne : (Int.ofNat m) ≠ 0 := by
        simp [Int.ofNat_eq_zero, hm]
      have hdiv : Int.ediv (Int.ofNat m) 2 = Int.ofNat (m / 2) := rfl
      have hmod : Int.emod (Int.ofNat m) 2 = Int.ofNat (m % 2) := rfl
      simp only [eventLoop, if_neg hne, hdiv, hmod]
      have hlt : m / 2 < fuel :=
        Nat.lt_of_lt_of_le (Nat.div_lt_self (Nat.pos_of_ne_zero hm) (by decide))
          (Nat.le_of_lt_succ h)
      have hcond : (Int.ofNat (m % 2) = 1) ↔ (m % 2 = 1) := by
        constructor
        · intro hx
          exact Int.ofNat_inj.mp hx
        · intro hx
          rw [hx]
          rfl
      rw [bitEvents, dif_neg hm]
      by_cases hpar : m % 2 = 1
      · rw [if_pos (hcond.mpr hpar), ih (m / 2) (n + 1) (acc ++ [n]) hlt, if_pos hpar]
        simp
      · rw [if_neg (fun hx => hpar (hcond.mp hx)), ih (m / 2) (n + 1) acc hlt, if_neg hpar]
        simp

theorem bitEvents_bounds (m : Nat) : ∀ n : Nat,
    (∀ x ∈ bitEvents m n, n ≤ x) ∧ List.Chain' (· < ·) (bitEvents m n) := by
  induction m using Nat.strong_induction_on with
  | _ m ih =>
    intro n
    by_cases hm : m = 0
    · subst hm
      rw [bitEvents_zero]
      simp
    · rw [bitEvents, dif_neg hm]
      have hlt : m / 2 < m := Nat.div_lt_self (Nat.pos_of_ne_zero hm) (by decide)
      obtain ⟨hge, hch⟩ := ih (m / 2) hlt (n + 1)
      by_cases hpar : m % 2 = 1
      · rw [if_pos hpar]
        constructor
        · intro x hx
          rcases List.mem_append.mp hx with hx | hx
          · simp at hx
            exact Nat.le_of_eq hx.symm
          · exact Nat.le_of_succ_le (hge x hx)
        · rw [List.singleton_append, List.chain'_cons']
          refine ⟨?_, hch⟩
          intro y hy
          have hym : y ∈ bitEvents (m / 2) (n + 1) := List.mem_of_mem_head? hy
          exact Nat.lt_of_lt_of_le (Nat.lt_succ_self n) (hge y hym)
      · rw [if_neg hpar]
        simp only [List.nil_append]
        exact ⟨fun x hx => Nat.le_of_succ_le (hge x hx), hch⟩

theorem bitEvents_testBit (k : Nat) : ∀ (m n : Nat),
    m.testBit k = true → (n + k) ∈ bitEvents m n := by
  induction k with
  | zero =>
    intro m n hbit
    rw [Nat.testBit_zero] at hbit
    have hpar : m % 2 = 1 := of_decide_eq_true hbit
    have hm : m ≠ 0 := by
      intro h
      subst h
      simp at hpar
    rw [bitEvents, dif_neg hm, if_pos hpar]
    simp
  | succ k ih =>
    intro m n hbit
    have hm : m ≠ 0 := by
      intro h
      subst h
      rw [Nat.zero_testBit] at hbit
      exact Bool.noConfusion hbit
    rw [Nat.testBit_succ] at hbit
    have hmem := ih (m / 2) (n + 1) hbit
    rw [bitEvents, dif_neg hm]
    have : n + (k + 1) = (n + 1) + k := by omega
    rw [this]
    exact List.mem_append.mpr (Or.inr hmem)

/-! ## Lemmas: per-index behaviour of the rewriter -/

theorem updateAgcGo_head_keep (d : CfgDict) (b : Bool) (l : Str) (post : List Str) (w : Bool)
    (hkeep : w = false ∨ matchCfgItem l = none) :
    ∃ tail, (updateAgcGo d b (l :: post) w).1 = l :: tail := by
  by_cases h1 : matchCfgStart l = true
  · rw [updateAgcGo_cons_start d b l post w h1]
    exact ⟨_, rfl⟩
  · rw [Bool.not_eq_true] at h1
    by_cases h2 : matchCfgEnd l = true
    · rw [updateAgcGo_cons_end d b l post w h1 h2]
      exact ⟨_, rfl⟩
    · rw [Bool.not_eq_true] at h2
      cases w with
      | false =>
        rw [updateAgcGo_cons_outside d b l post h1 h2]
        exact ⟨_, rfl⟩
      | true =>
        rcases hkeep with hk | hk
        · exact Bool.noConfusion hk
        · rw [updateAgcGo_cons_other d b l post h1 h2 hk]
          exact ⟨_, rfl⟩

theorem update_at_keep (d : CfgDict) (b : Bool) (pre : List Str) (l : Str) (post : List Str)
    (hkeep : flagAfter false pre = false ∨ matchCfgItem l = none) :
    ((updateAgcLineListWithDict (pre ++ l :: post) d b).1)[pre.length]? = some l := by
  unfold updateAgcLineListWithDict
  cases he : (updateAgcGo d b pre false).2 with
  | some e =>
    rw [updateAgcGo_append_of_err d b pre (l :: post) false e he]
    have hlen : pre.length = (updateAgcGo d b pre false).1.length :=
      (updateAgcGo_length d b pre false).symm
    rw [hlen]
    exact getElem?_append_cons _ _ _
  | none =>
    rw [updateAgcGo_append_of_ok d b pre (l :: post) false he]
    have hkeep' : flagAfter false pre = false ∨ matchCfgItem l = none := hkeep
    obtain ⟨tail, htail⟩ := updateAgcGo_head_keep d b l post (flagAfter false pre) hkeep'
    simp only [htail]
    have hlen : pre.length = (updateAgcGo d b pre false).1.length :=
      (updateAgcGo_length d b pre false).symm
    rw [hlen]
    exact getElem?_append_cons _ _ _

theorem update_at_found (d : CfgDict) (b : Bool) (pre : List Str) (l : Str) (post : List Str)
    (o a v s : Str) (hw : flagAfter false pre = true)
    (hi : matchCfgItem l = some (o, a, v))
    (hm : makeGcauAGCLineFromDict d o a = Except.ok s)
    (hpre : (updateAgcGo d b pre false).2 = none) :
    ((updateAgcLineListWithDict (pre ++ l :: post) d b).1)[pre.length]? = some s := by
  unfold updateAgcLineListWithDict
  rw [updateAgcGo_append_of_ok d b pre (l :: post) false hpre, hw]
  obtain ⟨hm1, hm2⟩ := matchCfgItem_markers l _ hi
  rw [updateAgcGo_cons_found d b l post o a v s hm1 hm2 hi hm]
  have hlen : pre.length = (updateAgcGo d b pre false).1.length :=
    (updateAgcGo_length d b pre false).symm
  rw [hlen]
  exact getElem?_append_cons _ _ _

theorem update_at_miss_relaxed (d : CfgDict) (pre : List Str) (l : Str) (post : List Str)
    (o a v : Str) (e : AgcError) (hw : flagAfter false pre = true)
    (hi : matchCfgItem l = some (o, a, v))
    (hm : makeGcauAGCLineFromDict d o a = Except.error e) :
    ((updateAgcLineListWithDict (pre ++ l :: post) d false).1)[pre.length]? = some l := by
  unfold updateAgcLineListWithDict
  rw [updateAgcGo_append_of_ok d false pre (l :: post) false
    (updateAgcGo_relaxed_noerr d pre false), hw]
  obtain ⟨hm1, hm2⟩ := matchCfgItem_markers l _ hi
  rw [updateAgcGo_cons_miss_relaxed d l post o a v e hm1 hm2 hi hm]
  have hlen : pre.length = (updateAgcGo d false pre false).1.length :=
    (updateAgcGo_length d false pre false).symm
  rw [hlen]
  exact getElem?_append_cons _ _ _

theorem update_strict_first_miss (d : CfgDict) (pre : List Str) (l : Str) (post : List Str)
    (o a v : Str) (e : AgcError) (hw : flagAfter false pre = true)
    (hi : matchCfgItem l = some (o, a, v))
    (hm : makeGcauAGCLineFromDict d o a = Except.error e)
    (hpre : (updateAgcGo d true pre false).2 = none) :
    updateAgcLineListWithDict (pre ++ l :: post) d true
      = ((updateAgcGo d true pre false).1 ++ l :: post, some e) := by
  unfold updateAgcLineListWithDict
  rw [updateAgcGo_append_of_ok d true pre (l :: post) false hpre, hw]
  obtain ⟨hm1, hm2⟩ := matchCfgItem_markers l _ hi
  rw [updateAgcGo_cons_miss_strict d l post o a v e hm1 hm2 hi hm]

/-! ## Lemmas: rewriting with the self-built dictionary -/

theorem updateAgcGo_selfdict_noerr (lines ls : List Str) (b w : Bool)
    (hsub : ∀ t ∈ itemsGo ls w, t ∈ itemsGo lines false) :
    (updateAgcGo (makeGcauCfgDictFromAgc lines) b ls w).2 = none := by
  apply updateAgcGo_noerr_of_all_found
  intro t ht
  obtain ⟨o, a, v⟩ := t
  obtain ⟨v', hv'⟩ := dictFind2_some_of_mem_items lines o a v (hsub _ ht)
  exact ⟨mkAgcLine o a v', makeGcau_ok_of_found _ o a v' hv'⟩

/-! ## Lemmas: dictionary pair set -/

theorem mem_dictPairs_foldl (items : List (Str × Str × Str)) (d : CfgDict) (p : Str × Str) :
    p ∈ dictPairs (List.foldl dictFoldStep d items) ↔ p ∈ itemPairs items ∨ p ∈ dictPairs d := by
  induction items generalizing d with
  | nil => simp [itemPairs]
  | cons t ts ih =>
    rw [List.foldl_cons, ih]
    simp only [dictFoldStep]
    rw [mem_dictPairs_upsert]
    simp only [itemPairs, List.map_cons, List.mem_cons]
    tauto

theorem itemsGo_nil_of_no_start (lines : List Str)
    (h : ∀ l ∈ lines, matchCfgStart l = false) : itemsGo lines false = [] := by
  induction lines with
  | nil => simp [itemsGo]
  | cons s t ih =>
    have hs : matchCfgStart s = false := h s (by simp)
    have ht : ∀ l ∈ t, matchCfgStart l = false := fun l hl => h l (by simp [hl])
    by_cases h2 : matchCfgEnd s = true
    · rw [show itemsGo (s :: t) false = itemsGo t false by simp [itemsGo, hs, h2]]
      exact ih ht
    · rw [Bool.not_eq_true] at h2
      rw [itemsGo_skip s t hs h2]
      exact ih ht

/-! ## Claims -/

/-- Claim C6: for every line sequence, the set of `(object, attribute)` pairs
in the dictionary builder's mapping equals the set obtained by flattening the
structure lister's output on the same sequence, and neither operation ever
fails (both are total functions of this embedding): a sequence with no
in-region assignments — in particular one with no region-start marker —
yields an empty mapping and an empty listing. -/
theorem claim_C6 : ∀ lines : List Str,
    (∀ p : Str × Str, p ∈ dictPairs (makeGcauCfgDictFromAgc lines)
        ↔ p ∈ structPairs (makeGcauCfgStructureListFromAgc lines))
    ∧ (itemsGo lines false = [] →
        makeGcauCfgDictFromAgc lines = [] ∧ makeGcauCfgStructureListFromAgc lines = [])
    ∧ ((∀ l ∈ lines, matchCfgStart l = false) →
        makeGcauCfgDictFromAgc lines = [] ∧ makeGcauCfgStructureListFromAgc lines = []) := by
  intro lines
  have hempty : itemsGo lines false = [] →
      makeGcauCfgDictFromAgc lines = [] ∧ makeGcauCfgStructureListFromAgc lines = [] := by
    intro h
    constructor
    · rw [makeGcauCfgDictFromAgc_items, h]
      rfl
    · rw [makeGcauCfgStructureListFromAgc_chunks, h]
      rfl
  refine ⟨?_, hempty, fun h => hempty (itemsGo_nil_of_no_start lines h)⟩
  intro p
  rw [makeGcauCfgDictFromAgc_items, mem_dictPairs_foldl,
    makeGcauCfgStructureListFromAgc_chunks, structPairs_chunks]
  simp [dictPairs]

/-- Claim C7: the single-assignment formatter fails with object-not-found
exactly when the object is absent from the mapping; fails with
attribute-not-found (naming the attribute) exactly when the object is present
but the attribute absent; and otherwise returns exactly
`OBJECT.attribute = "value"` followed by a single line feed, where the value
is the stored value for that pair. -/
theorem claim_C7 : ∀ (d : CfgDict) (o a : Str),
    (makeGcauAGCLineFromDict d o a = Except.error (AgcError.objNotFound o)
      ↔ alFind d o = none)
    ∧ (makeGcauAGCLineFromDict d o a = Except.error (AgcError.attrNotFound a)
      ↔ ∃ inner, alFind d o = some inner ∧ alFind inner a = none)
    ∧ (∀ inner v, alFind d o = some inner → alFind inner a = some v →
        makeGcauAGCLineFromDict d o a
          = Except.ok (o ++ ('.' :: (a ++ (' ' :: '=' :: ' ' :: '"' :: (v ++ ['"', '\n'])))))) := by
  intro d o a
  refine ⟨?_, ?_, ?_⟩
  · cases hd : alFind d o with
    | none => simp [makeGcauAGCLineFromDict, hd]
    | some inner =>
      cases ha : alFind inner a with
      | none => simp [makeGcauAGCLineFromDict, hd, ha]
      | some v => simp [makeGcauAGCLineFromDict, hd, ha]
  · cases hd : alFind d o with
    | none => simp [makeGcauAGCLineFromDict, hd]
    | some inner =>
      cases ha : alFind inner a with
      | none => simp [makeGcauAGCLineFromDict, hd, ha]
      | some v => simp [makeGcauAGCLineFromDict, hd, ha]
  · intro inner v hinner ha
    simp [makeGcauAGCLineFromDict, hinner, ha, mkAgcLine]

/-- Claim C7 witness: the formatter evaluated on concrete mappings through
the theorem. -/
theorem claim_C7_witness :
    makeGcauAGCLineFromDict [(lit "A", [(lit "B", lit "2")])] (lit "A") (lit "B")
      = Except.ok ((lit "A")
          ++ ('.' :: ((lit "B") ++ (' ' :: '=' :: ' ' :: '"' :: ((lit "2") ++ ['"', '\n'])))))
    ∧ makeGcauAGCLineFromDict [] (lit "A") (lit "B")
      = Except.error (AgcError.objNotFound (lit "A"))
    ∧ makeGcauAGCLineFromDict [(lit "A", [])] (lit "A") (lit "B")
      = Except.error (AgcError.attrNotFound (lit "B")) :=
  ⟨(claim_C7 [(lit "A", [(lit "B", lit "2")])] (lit "A") (lit "B")).2.2
      [(lit "B", lit "2")] (lit "2") (by decide) (by decide),
   (claim_C7 [] (lit "A") (lit "B")).1.mpr (by decide),
   (claim_C7 [(lit "A", [])] (lit "A") (lit "B")).2.1.mpr ⟨[], by decide, by decide⟩⟩

/-- Claim C8: the structural listing is exactly the grouping of the in-region
assignment subsequence into maximal runs of equal object name: objects appear
in first-occurrence order with attributes in first-seen order, and a
same-named object that reappears after a different object's in-region
assignment starts a new entry instead of merging into the earlier one
(adjacent entries always carry distinct object names). -/
theorem claim_C8 : ∀ lines : List Str,
    makeGcauCfgStructureListFromAgc lines = chunks (itemPairs (itemsGo lines false))
    ∧ List.Chain' (fun e f : Str × List Str => e.1 ≠ f.1)
        (makeGcauCfgStructureListFromAgc lines) := by
  intro lines
  refine ⟨makeGcauCfgStructureListFromAgc_chunks lines, ?_⟩
  rw [makeGcauCfgStructureListFromAgc_chunks]
  exact chunks_chain _

/-- Claim C9: an assignment line at a position where the region flag is false
(before the first start marker, or after an end marker and before any later
start marker) contributes nothing to the dictionary builder's mapping or to
the structure lister's listing: deleting it changes neither result. -/
theorem claim_C9 : ∀ (pre : List Str) (l : Str) (post : List Str) (o a v : Str),
    flagAfter false pre = false → matchCfgItem l = some (o, a, v) →
    makeGcauCfgDictFromAgc (pre ++ l :: post) = makeGcauCfgDictFromAgc (pre ++ post)
    ∧ makeGcauCfgStructureListFromAgc (pre ++ l :: post)
        = makeGcauCfgStructureListFromAgc (pre ++ post) := by
  intro pre l post o a v hw hi
  obtain ⟨h1, h2⟩ := matchCfgItem_markers l _ hi
  have hitems : itemsGo (pre ++ l :: post) false = itemsGo (pre ++ post) false := by
    rw [itemsGo_append, itemsGo_append, hw, itemsGo_skip l post h1 h2]
  constructor
  · rw [makeGcauCfgDictFromAgc_items, makeGcauCfgDictFromAgc_items, hitems]
  · rw [makeGcauCfgStructureListFromAgc_chunks, makeGcauCfgStructureListFromAgc_chunks,
      hitems]

/-- Claim C9 witness: deleting an out-of-region assignment line from a
concrete sequence changes neither the mapping nor the listing. -/
theorem claim_C9_witness :
    makeGcauCfgDictFromAgc ([lit "X"] ++ (lit "A.B = \"1\"") :: [lit "Y"])
      = makeGcauCfgDictFromAgc ([lit "X"] ++ [lit "Y"])
    ∧ makeGcauCfgStructureListFromAgc ([lit "X"] ++ (lit "A.B = \"1\"") :: [lit "Y"])
      = makeGcauCfgStructureListFromAgc ([lit "X"] ++ [lit "Y"]) :=
  claim_C9 [lit "X"] (lit "A.B = \"1\"") [lit "Y"] (lit "A") (lit "B") (lit "1")
    (by decide) (by decide)

/-- Claim C10: when `SYSVAR` is present with an `EventEnable` attribute whose
value is rejected by `int(_, 16)` (for example the empty string or one with a
non-hex character), the decoder raises a value-parsing error which is neither
the object-not-found condition nor the attribute-not-found condition. -/
theorem claim_C10 : ∀ (d : CfgDict) (obj : List (Str × Str)) (v : Str) (fuel : Nat),
    alFind d (lit "SYSVAR") = some obj → alFind obj (lit "EventEnable") = some v →
    pyIntHex v = none →
    makeListOfEnabledEventsF fuel d = some (Except.error AgcError.valueError)
    ∧ (∀ s, AgcError.valueError ≠ AgcError.objNotFound s)
    ∧ (∀ s, AgcError.valueError ≠ AgcError.attrNotFound s) := by
  intro d obj v fuel h1 h2 h3
  refine ⟨?_, fun s h => AgcError.noConfusion h, fun s h => AgcError.noConfusion h⟩
  simp only [makeListOfEnabledEventsF, h1, h2, h3]

/-- Claim C10 witness: a non-hex `EventEnable` value on a concrete mapping. -/
theorem claim_C10_witness :
    makeListOfEnabledEventsF 0 [(lit "SYSVAR", [(lit "EventEnable", lit "Z")])]
      = some (Except.error AgcError.valueError) :=
  (claim_C10 [(lit "SYSVAR", [(lit "EventEnable", lit "Z")])]
    [(lit "EventEnable", lit "Z")] (lit "Z") 0 rfl rfl (by decide)).1

/-- Claim C4: the bitmask decoder fails with object-not-found when `SYSVAR`
is absent; fails with attribute-not-found, naming `EventEnable`, when
`SYSVAR` is present but lacks it; otherwise, whenever the loop returns a
list, every set bit `k` of the parsed value contributes event `k + 1`, the
list is strictly ascending, and a zero mask yields the empty list (at any
fuel, without error); on `{"SYSVAR": {"EventEnable": "A"}}` it returns
`[2, 4]`. -/
theorem claim_C4 : ∀ (d : CfgDict) (fuel : Nat),
    (alFind d (lit "SYSVAR") = none →
      makeListOfEnabledEventsF fuel d
        = some (Except.error (AgcError.objNotFound (lit "SYSVAR"))))
    ∧ (∀ obj, alFind d (lit "SYSVAR") = some obj → alFind obj (lit "EventEnable") = none →
      makeListOfEnabledEventsF fuel d
        = some (Except.error (AgcError.attrNotFound (lit "EventEnable"))))
    ∧ (∀ obj v m l, alFind d (lit "SYSVAR") = some obj →
        alFind obj (lit "EventEnable") = some v → pyIntHex v = some m →
        makeListOfEnabledEventsF fuel d = some (Except.ok l) →
        (∀ k, m.toNat.testBit k = true → (k + 1) ∈ l)
          ∧ List.Chain' (· < ·) l ∧ (m = 0 → l = []))
    ∧ (∀ obj v, alFind d (lit "SYSVAR") = some obj →
        alFind obj (lit "EventEnable") = some v → pyIntHex v = some 0 →
        makeListOfEnabledEventsF fuel d = some (Except.ok []))
    ∧ makeListOfEnabledEventsF 16 [(lit "SYSVAR", [(lit "EventEnable", lit "A")])]
        = some (Except.ok [2, 4]) := by
  intro d fuel
  refine ⟨?_, ?_, ?_, ?_, by rfl⟩
  · intro h1
    simp only [makeListOfEnabledEventsF, h1]
  · intro obj h1 h2
    simp only [makeListOfEnabledEventsF, h1, h2]
  · intro obj v m l h1 h2 h3 h4
    simp only [makeListOfEnabledEventsF, h1, h2, h3] at h4
    rw [Option.map_eq_some'] at h4
    obtain ⟨l0, hl0, hok⟩ := h4
    injection hok with hok
    subst hok
    cases m with
    | ofNat mm =>
      have hsound := eventLoop_ofNat_sound fuel mm 1 [] l0 hl0
      rw [List.nil_append] at hsound
      subst hsound
      have htn : (Int.ofNat mm).toNat = mm := rfl
      refine ⟨?_, (bitEvents_bounds mm 1).2, ?_⟩
      · intro k hk
        rw [htn] at hk
        have := bitEvents_testBit k mm 1 hk
        rw [Nat.add_comm 1 k] at this
        exact this
      · intro hm0
        have hmm : mm = 0 := Nat.cast_eq_zero.mp (show ((mm : Nat) : Int) = 0 from hm0)
        subst hmm
        exact bitEvents_zero 1
    | negSucc k =>
      rw [eventLoop_negSucc] at hl0
      exact Option.noConfusion hl0
  · intro obj v h1 h2 h3
    simp only [makeListOfEnabledEventsF, h1, h2, h3]
    rw [show (0 : Int) = Int.ofNat 0 from rfl] at h3 ⊢
    rw [show Int.ofNat 0 = (0 : Int) from rfl, eventLoop_zero]
    rfl

/-- Claim C4 witness: the decoder through the theorem on concrete mappings:
missing object, missing attribute, zero mask, and the ascending property of
the `[2, 4]` scenario. -/
theorem claim_C4_witness :
    makeListOfEnabledEventsF 1 []
      = some (Except.error (AgcError.objNotFound (lit "SYSVAR")))
    ∧ makeListOfEnabledEventsF 1 [(lit "SYSVAR", [(lit "X", lit "0")])]
      = some (Except.error (AgcError.attrNotFound (lit "EventEnable")))
    ∧ makeListOfEnabledEventsF 1 [(lit "SYSVAR", [(lit "EventEnable", lit "0")])]
      = some (Except.ok [])
    ∧ List.Chain' (· < ·) ([2, 4] : List Nat) := by
  refine ⟨(claim_C4 [] 1).1 (by decide),
    (claim_C4 [(lit "SYSVAR", [(lit "X", lit "0")])] 1).2.1
      [(lit "X", lit "0")] (by decide) (by decide),
    (claim_C4 [(lit "SYSVAR", [(lit "EventEnable", lit "0")])] 1).2.2.2.1
      [(lit "EventEnable", lit "0")] (lit "0") (by decide) (by decide) (by decide), ?_⟩
  have h := (claim_C4 [(lit "SYSVAR", [(lit "EventEnable", lit "A")])] 16).2.2.1
    [(lit "EventEnable", lit "A")] (lit "A") 10 [2, 4] (by decide) (by decide) (by decide)
    ((claim_C4 [(lit "SYSVAR", [(lit "EventEnable", lit "A")])] 16).2.2.2.2)
  exact h.2.1

/-- Claim C3 counterexample: the decoder does NOT terminate on every mapping
whose `EventEnable` value parses in base 16: the value `"-1"` parses to the
negative integer `-1`, and on it the loop `while mask != 0: mask = mask >> 1`
never reaches `0` (`-1 >> 1 == -1`), so no amount of fuel makes the call
return. -/
theorem claim_C3_counterexample :
    pyIntHex (lit "-1") = some (-1)
    ∧ ¬ decoderTerminates [(lit "SYSVAR", [(lit "EventEnable", lit "-1")])] := by
  constructor
  · decide
  · rintro ⟨fuel, r, hr⟩
    have hstep : makeListOfEnabledEventsF fuel
        [(lit "SYSVAR", [(lit "EventEnable", lit "-1")])]
        = (eventLoop fuel (Int.negSucc 0) 1 []).map Except.ok := rfl
    rw [hstep, eventLoop_negSucc] at hr
    exact Option.noConfusion hr

/-- Claim C3 (amended): every core operation of the embedding is total, and
the bitmask decoder terminates on every mapping whose `EventEnable` value
parses as a NONNEGATIVE base-16 integer `m`: fuel `m + 1` suffices and the
loop returns the finite list of one-based set-bit positions of `m`.  (For
negative parsed values the loop never terminates — see the counterexample.) -/
theorem claim_C3_amended : ∀ (d : CfgDict) (obj : List (Str × Str)) (v : Str) (m : Nat),
    alFind d (lit "SYSVAR") = some obj →
    alFind obj (lit "EventEnable") = some v →
    pyIntHex v = some (Int.ofNat m) →
    makeListOfEnabledEventsF (m + 1) d = some (Except.ok (bitEvents m 1)) := by
  intro d obj v m h1 h2 h3
  simp only [makeListOfEnabledEventsF, h1, h2, h3]
  rw [eventLoop_ofNat_complete (m + 1) m 1 [] (Nat.lt_succ_self m)]
  rw [List.nil_append]
  rfl

/-- Claim C3 witness: the amended termination bound evaluated on the hex
value `"A"` (mask 10). -/
theorem claim_C3_witness :
    makeListOfEnabledEventsF 11 [(lit "SYSVAR", [(lit "EventEnable", lit "A")])]
      = some (Except.ok (bitEvents 10 1)) :=
  claim_C3_amended [(lit "SYSVAR", [(lit "EventEnable", lit "A")])]
    [(lit "EventEnable", lit "A")] (lit "A") 10 rfl rfl rfl

/-- Claim C5: in strict mode the rewriter raises the lookup failure of the
first in-region assignment whose pair is missing, immediately: the prefix
processed before it keeps whatever rewrites strict mode performed (no
rollback) and the missing line and everything after it stay original; in
relaxed mode the rewriter never errors, leaves each missing line's original
text untouched, and still rewrites every found line. -/
theorem claim_C5 : ∀ d : CfgDict,
    (∀ lines, (updateAgcLineListWithDict lines d false).2 = none)
    ∧ (∀ pre l post o a v e, flagAfter false pre = true → matchCfgItem l = some (o, a, v) →
        makeGcauAGCLineFromDict d o a = Except.error e →
        (updateAgcGo d true pre false).2 = none →
        updateAgcLineListWithDict (pre ++ l :: post) d true
          = ((updateAgcGo d true pre false).1 ++ l :: post, some e))
    ∧ (∀ pre l post o a v e, flagAfter false pre = true → matchCfgItem l = some (o, a, v) →
        makeGcauAGCLineFromDict d o a = Except.error e →
        ((updateAgcLineListWithDict (pre ++ l :: post) d false).1)[pre.length]? = some l)
    ∧ (∀ pre l post o a v s, flagAfter false pre = true → matchCfgItem l = some (o, a, v) →
        makeGcauAGCLineFromDict d o a = Except.ok s →
        ((updateAgcLineListWithDict (pre ++ l :: post) d false).1)[pre.length]? = some s) := by
  intro d
  refine ⟨?_, ?_, ?_, ?_⟩
  · intro lines
    exact updateAgcGo_relaxed_noerr d lines false
  · intro pre l post o a v e hw hi hm hpre
    exact update_strict_first_miss d pre l post o a v e hw hi hm hpre
  · intro pre l post o a v e hw hi hm
    exact update_at_miss_relaxed d pre l post o a v e hw hi hm
  · intro pre l post o a v s hw hi hm
    exact update_at_found d false pre l post o a v s hw hi hm
      (updateAgcGo_relaxed_noerr d pre false)

/-- Claim C5 witness: strict mode aborting on a missing attribute with the
rest of the sequence untouched, and relaxed mode skipping the missing line
while rewriting the found one. -/
theorem claim_C5_witness :
    (updateAgcLineListWithDict [lit "X"] [(lit "A", [(lit "B", lit "2")])] false).2 = none
    ∧ updateAgcLineListWithDict
        ([lit "$GCAUConfigurationData = \"Start\""] ++ (lit "A.C = \"1\"") :: [lit "A.B = \"1\""])
        [(lit "A", [(lit "B", lit "2")])] true
      = ((updateAgcGo [(lit "A", [(lit "B", lit "2")])] true
            [lit "$GCAUConfigurationData = \"Start\""] false).1
          ++ (lit "A.C = \"1\"") :: [lit "A.B = \"1\""],
         some (AgcError.attrNotFound (lit "C")))
    ∧ ((updateAgcLineListWithDict
          ([lit "$GCAUConfigurationData = \"Start\""] ++ (lit "A.C = \"1\"") :: [])
          [(lit "A", [(lit "B", lit "2")])] false).1)[1]? = some (lit "A.C = \"1\"")
    ∧ ((updateAgcLineListWithDict
          ([lit "$GCAUConfigurationData = \"Start\""] ++ (lit "A.B = \"1\"") :: [])
          [(lit "A", [(lit "B", lit "2")])] false).1)[1]?
        = some (lit "A.B = \"2\"\n") :=
  ⟨(claim_C5 [(lit "A", [(lit "B", lit "2")])]).1 [lit "X"],
   (claim_C5 [(lit "A", [(lit "B", lit "2")])]).2.1
     [lit "$GCAUConfigurationData = \"Start\""] (lit "A.C = \"1\"") [lit "A.B = \"1\""]
     (lit "A") (lit "C") (lit "1") (AgcError.attrNotFound (lit "C"))
     (by decide) (by decide) (by rfl) (by decide),
   (claim_C5 [(lit "A", [(lit "B", lit "2")])]).2.2.1
     [lit "$GCAUConfigurationData = \"Start\""] (lit "A.C = \"1\"") []
     (lit "A") (lit "C") (lit "1") (AgcError.attrNotFound (lit "C"))
     (by decide) (by decide) (by rfl),
   (claim_C5 [(lit "A", [(lit "B", lit "2")])]).2.2.2
     [lit "$GCAUConfigurationData = \"Start\""] (lit "A.B = \"1\"") []
     (lit "A") (lit "B") (lit "1") (lit "A.B = \"2\"\n")
     (by decide) (by decide) (by rfl)⟩

/-- Claim C1 counterexample: the rewriter does NOT attempt a rewrite of
matching lines outside the `$GCAUConfigurationData` region.  The line
`A.B = "1"` matches the assignment grammar, its pair `(A, B)` is present in
the mapping with the canonical replacement `A.B = "2"\n`, yet with no start
marker before it the rewriter (strict or relaxed) leaves it unchanged. -/
theorem claim_C1_counterexample :
    matchCfgItem (lit "A.B = \"1\"") = some (lit "A", lit "B", lit "1")
    ∧ makeGcauAGCLineFromDict [(lit "A", [(lit "B", lit "2")])] (lit "A") (lit "B")
        = Except.ok (lit "A.B = \"2\"\n")
    ∧ updateAgcLineListWithDict [lit "A.B = \"1\""] [(lit "A", [(lit "B", lit "2")])] true
        = ([lit "A.B = \"1\""], none)
    ∧ updateAgcLineListWithDict [lit "A.B = \"1\""] [(lit "A", [(lit "B", lit "2")])] false
        = ([lit "A.B = \"1\""], none)
    ∧ lit "A.B = \"1\"" ≠ lit "A.B = \"2\"\n" :=
  ⟨by decide, by rfl, by decide, by decide, by decide⟩

/-- Claim C1 (amended): the region flag DOES gate the rewriter.  A line at a
position where the flag is false is always left untouched, in both modes and
whether or not it matches the assignment grammar; an in-region line that
matches the grammar and whose pair is found in the mapping is replaced by
the canonically formatted line (provided no earlier strict-mode failure
aborted the traversal first). -/
theorem claim_C1_amended :
    ∀ (d : CfgDict) (b : Bool) (pre : List Str) (l : Str) (post : List Str),
    (flagAfter false pre = false →
      ((updateAgcLineListWithDict (pre ++ l :: post) d b).1)[pre.length]? = some l)
    ∧ (∀ o a v s, flagAfter false pre = true → matchCfgItem l = some (o, a, v) →
        makeGcauAGCLineFromDict d o a = Except.ok s →
        (updateAgcGo d b pre false).2 = none →
        ((updateAgcLineListWithDict (pre ++ l :: post) d b).1)[pre.length]? = some s) := by
  intro d b pre l post
  constructor
  · intro hw
    exact update_at_keep d b pre l post (Or.inl hw)
  · intro o a v s hw hi hm hpre
    exact update_at_found d b pre l post o a v s hw hi hm hpre

/-- Claim C1 witness: an out-of-region matching line stays unchanged while an
in-region one is rewritten, through the amended theorem. -/
theorem claim_C1_witness :
    ((updateAgcLineListWithDict ([lit "X"] ++ (lit "A.B = \"1\"") :: [])
        [(lit "A", [(lit "B", lit "2")])] true).1)[1]? = some (lit "A.B = \"1\"")
    ∧ ((updateAgcLineListWithDict
          ([lit "$GCAUConfigurationData = \"Start\""] ++ (lit "A.B = \"1\"") :: [])
          [(lit "A", [(lit "B", lit "2")])] true).1)[1]? = some (lit "A.B = \"2\"\n") :=
  ⟨(claim_C1_amended [(lit "A", [(lit "B", lit "2")])] true [lit "X"]
      (lit "A.B = \"1\"") []).1 (by decide),
   (claim_C1_amended [(lit "A", [(lit "B", lit "2")])] true
      [lit "$GCAUConfigurationData = \"Start\""] (lit "A.B = \"1\"") []).2
     (lit "A") (lit "B") (lit "1") (lit "A.B = \"2\"\n")
     (by decide) (by decide) (by rfl) (by decide)⟩

/-- Claim C2 counterexample: rewriting a sequence with the very mapping built
from it does NOT leave every assignment line byte-identical.  In
`[Start, A.B = "1"\r\n, A.B = "2"\n]` the dictionary keeps the last value
(`"2"`), so the first assignment line comes back as `A.B = "2"\n`: its value
is replaced by the last-stored one and its `\r\n` terminator is normalized to
`\n`. -/
theorem claim_C2_counterexample :
    matchCfgItem (lit "A.B = \"1\"\r\n") = some (lit "A", lit "B", lit "1")
    ∧ (updateAgcLineListWithDict
        [lit "$GCAUConfigurationData = \"Start\"\n", lit "A.B = \"1\"\r\n",
          lit "A.B = \"2\"\n"]
        (makeGcauCfgDictFromAgc
          [lit "$GCAUConfigurationData = \"Start\"\n", lit "A.B = \"1\"\r\n",
            lit "A.B = \"2\"\n"])
        false).1
      = [lit "$GCAUConfigurationData = \"Start\"\n", lit "A.B = \"2\"\n",
          lit "A.B = \"2\"\n"]
    ∧ lit "A.B = \"2\"\n" ≠ lit "A.B = \"1\"\r\n" :=
  ⟨by decide, by decide, by decide⟩

/-- Claim C2 (amended): rewriting a line sequence with the mapping built from
it never raises (in either mode); every non-assignment or out-of-region line
is byte-identical to its original; every in-region assignment line is
replaced by the canonical line `OBJ.attr = "v"\n` carrying the mapping's
(last-stored) value for its pair — so when the pair occurs exactly once
among the in-region assignments, object, attribute and value are all
preserved and only the spacing/terminator are normalized to canonical
form. -/
theorem claim_C2_amended : ∀ (lines : List Str) (b : Bool),
    ((updateAgcLineListWithDict lines (makeGcauCfgDictFromAgc lines) b).2 = none)
    ∧ (∀ pre l post o a v, lines = pre ++ l :: post → flagAfter false pre = true →
        matchCfgItem l = some (o, a, v) →
        ∃ v', dictFind2 (makeGcauCfgDictFromAgc lines) o a = some v'
          ∧ ((updateAgcLineListWithDict lines (makeGcauCfgDictFromAgc lines) b).1)[pre.length]?
              = some (mkAgcLine o a v')
          ∧ (selVals (itemsGo lines false) o a = [v] → v' = v))
    ∧ (∀ pre l post, lines = pre ++ l :: post →
        (flagAfter false pre = false ∨ matchCfgItem l = none) →
        ((updateAgcLineListWithDict lines (makeGcauCfgDictFromAgc lines) b).1)[pre.length]?
          = some l) := by
  intro lines b
  refine ⟨updateAgcGo_selfdict_noerr lines lines b false (fun t ht => ht), ?_, ?_⟩
  · intro pre l post o a v hdec hw hi
    subst hdec
    obtain ⟨hm1, hm2⟩ := matchCfgItem_markers l _ hi
    have hitems : itemsGo (pre ++ l :: post) false
        = itemsGo pre false ++ (o, a, v) :: itemsGo post true := by
      rw [itemsGo_append, hw]
      congr 1
      simp [itemsGo, hm1, hm2, hi]
    have hmem : (o, a, v) ∈ itemsGo (pre ++ l :: post) false := by
      rw [hitems]
      exact List.mem_append.mpr (Or.inr (List.mem_cons_self _ _))
    obtain ⟨v', hv'⟩ := dictFind2_some_of_mem_items _ o a v hmem
    refine ⟨v', hv', ?_, ?_⟩
    · have hpre :
          (updateAgcGo (makeGcauCfgDictFromAgc (pre ++ l :: post)) b pre false).2 = none := by
        apply updateAgcGo_selfdict_noerr
        intro t ht
        rw [itemsGo_append]
        exact List.mem_append.mpr (Or.inl ht)
      exact update_at_found _ b pre l post o a v (mkAgcLine o a v') hw hi
        (makeGcau_ok_of_found _ o a v' hv') hpre
    · intro hsel
      have hlast := dictFind2_last_of_unique _ o a v hsel
      rw [hv'] at hlast
      injection hlast
  · intro pre l post hdec hcase
    subst hdec
    exact update_at_keep _ b pre l post hcase

/-- Claim C2 witness: the amended self-rewrite facts on a concrete sequence
whose single in-region assignment already has canonical form. -/
theorem claim_C2_witness :
    ((updateAgcLineListWithDict
        [lit "$GCAUConfigurationData = \"Start\"", lit "A.B = \"1\"\n"]
        (makeGcauCfgDictFromAgc
          [lit "$GCAUConfigurationData = \"Start\"", lit "A.B = \"1\"\n"]) false).2 = none)
    ∧ ∃ v', dictFind2
          (makeGcauCfgDictFromAgc
            [lit "$GCAUConfigurationData = \"Start\"", lit "A.B = \"1\"\n"])
          (lit "A") (lit "B") = some v'
        ∧ ((updateAgcLineListWithDict
              [lit "$GCAUConfigurationData = \"Start\"", lit "A.B = \"1\"\n"]
              (makeGcauCfgDictFromAgc
                [lit "$GCAUConfigurationData = \"Start\"", lit "A.B = \"1\"\n"])
              false).1)[1]? = some (mkAgcLine (lit "A") (lit "B") v')
        ∧ (selVals (itemsGo
              [lit "$GCAUConfigurationData = \"Start\"", lit "A.B = \"1\"\n"] false)
            (lit "A") (lit "B") = [lit "1"] → v' = lit "1") :=
  ⟨(claim_C2_amended
      [lit "$GCAUConfigurationData = \"Start\"", lit "A.B = \"1\"\n"] false).1,
   (claim_C2_amended
      [lit "$GCAUConfigurationData = \"Start\"", lit "A.B = \"1\"\n"] false).2.1
     [lit "$GCAUConfigurationData = \"Start\""] (lit "A.B = \"1\"\n") []
     (lit "A") (lit "B") (lit "1") rfl (by decide) (by decide)⟩

/-- Claim C6 witness: pair-set agreement and the empty-result cases on
concrete sequences, through the theorem. -/
theorem claim_C6_witness :
    ((lit "A", lit "B") ∈ dictPairs (makeGcauCfgDictFromAgc
        [lit "$GCAUConfigurationData = \"Start\"", lit "A.B = \"1\""])
      ↔ (lit "A", lit "B") ∈ structPairs (makeGcauCfgStructureListFromAgc
        [lit "$GCAUConfigurationData = \"Start\"", lit "A.B = \"1\""]))
    ∧ (makeGcauCfgDictFromAgc [lit "X", lit "A.B = \"1\""] = []
        ∧ makeGcauCfgStructureListFromAgc [lit "X", lit "A.B = \"1\""] = []) :=
  ⟨(claim_C6 [lit "$GCAUConfigurationData = \"Start\"", lit "A.B = \"1\""]).1
      (lit "A", lit "B"),
   (claim_C6 [lit "X", lit "A.B = \"1\""]).2.2 (by decide)⟩
